import Mathlib

/-!
Verification of the resilient Ethereum client layer (node pool, reconnecting
subscription, log decoder, bounded event store) against its specification.

The Go sources are shallowly embedded:

* `MultiNodePool`   — src/10-multi-node-pool/main.go
* `MiniExplorer`    — the mini block-explorer service (`EventStore`,
  `subscribeTransferEvents`)
* `SubscribeLogs`   — src/06-subscribe-logs/main.go (`parseLogEvent`)
* `Reconnect`       — the reconnect-strategy example (`runWithReconnect`,
  `sleepWithBackoff`)

Bytes are modelled as `Nat` (each intended `< 256`), 32-byte EVM words and
20-byte addresses as `List Nat`.  External collaborator behaviour (dial
outcomes, the stream of raw logs, go-ethereum's ABI `Unpack`) is supplied by
oracles or modelled from the spec where noted.
-/

set_option maxHeartbeats 1000000

namespace EthAbi

/-- A raw log entry as delivered by the chain RPC collaborator
(`types.Log`): ordered 32-byte topic words plus a variable-length payload,
with the provenance fields the decoders copy. -/
structure RawLog where
  topics : List (List Nat)
  data : List Nat
  blockNumber : Nat
  txHash : String
deriving DecidableEq

/-- Big-endian interpretation of a byte sequence
(`new(big.Int).SetBytes(...)` in the sources). -/
def beToNat (bs : List Nat) : Nat :=
  bs.foldl (fun acc b => acc * 256 + b) 0

/-- `natToBE k v` is the `k`-byte big-endian encoding of `v` (mod `256 ^ k`);
used to build the synthetic logs of the round-trip properties. -/
def natToBE : Nat → Nat → List Nat
  | 0, _ => []
  | k + 1, v => natToBE k (v / 256) ++ [v % 256]

/-- Mirrors go-ethereum's `common.BytesToAddress`: keep the low-order 20
bytes of a longer word, left-pad a shorter one with zero bytes. -/
def bytesToAddress (bs : List Nat) : List Nat :=
  if 20 ≤ bs.length then bs.drop (bs.length - 20)
  else List.replicate (20 - bs.length) 0 ++ bs

/-- The all-zero Ethereum address (`common.Address` zero value). -/
def zeroAddress : List Nat := List.replicate 20 0

theorem natToBE_length (k v : Nat) : (natToBE k v).length = k := by
  induction k generalizing v with
  | zero => rfl
  | succ k ih => simp [natToBE, ih]

theorem beToNat_append_byte (bs : List Nat) (b : Nat) :
    beToNat (bs ++ [b]) = beToNat bs * 256 + b := by
  simp [beToNat, List.foldl_append]

theorem beToNat_natToBE (k v : Nat) : beToNat (natToBE k v) = v % 256 ^ k := by
  induction k generalizing v with
  | zero => simp [natToBE, beToNat, Nat.mod_one]
  | succ k ih =>
    rw [natToBE, beToNat_append_byte, ih]
    have hpow : (256 : Nat) ^ (k + 1) = 256 * 256 ^ k := by ring
    rw [hpow]
    have h1 : 256 * (v / 256) + v % 256 = v := Nat.div_add_mod v 256
    have h2 : 256 ^ k * (v / 256 / 256 ^ k) + v / 256 % 256 ^ k = v / 256 :=
      Nat.div_add_mod ..
    have h3 : (256 * 256 ^ k) * (v / (256 * 256 ^ k)) + v % (256 * 256 ^ k) = v :=
      Nat.div_add_mod ..
    have h4 : v / (256 * 256 ^ k) = v / 256 / 256 ^ k :=
      (Nat.div_div_eq_div_mul ..).symm
    rw [h4] at h3
    have h7 : (256 * 256 ^ k) * (v / 256 / 256 ^ k)
        = 256 * (256 ^ k * (v / 256 / 256 ^ k)) := by ring
    rw [h7] at h3
    omega

theorem beToNat_natToBE_of_lt {k v : Nat} (h : v < 256 ^ k) :
    beToNat (natToBE k v) = v := by
  rw [beToNat_natToBE, Nat.mod_eq_of_lt h]

theorem bytesToAddress_pad {a : List Nat} (h : a.length = 20) :
    bytesToAddress (List.replicate 12 0 ++ a) = a := by
  have hlen : (List.replicate 12 (0 : Nat) ++ a).length = 32 := by
    simp [h]
  rw [bytesToAddress, if_pos (by omega), hlen]
  show (List.replicate 12 0 ++ a).drop 12 = a
  have h12 : (List.replicate 12 (0 : Nat)).length = 12 := by simp
  rw [List.drop_left' h12]

end EthAbi

namespace MiniExplorer

open EthAbi

/-- Mirrors `TransferEvent` of the mini explorer service.  Addresses are kept
as 20-byte sequences rather than their hex rendering (`.Hex()` is injective),
and the wall-clock `Timestamp` field is omitted. -/
structure TransferEvent where
  blockNumber : Nat
  txHash : String
  fromAddr : List Nat
  toAddr : List Nat
  value : Nat
deriving DecidableEq

/-- Mirrors `EventStore`: the backing slice and the `limit` field. -/
structure EventStore where
  events : List TransferEvent
  limit : Nat
deriving DecidableEq

/-- Mirrors `NewEventStore`: empty backing slice with the given limit. -/
def NewEventStore (limit : Nat) : EventStore := ⟨[], limit⟩

/-- Mirrors `EventStore.Add`: when `len(events) >= limit` the code evaluates
`events[1:]` before appending.  In Go that slice expression panics exactly
when `events` is empty (slice bound 1 exceeds its length 0, which happens on
the first `Add` of a store built with capacity 0); the panic is modelled as
`none`. -/
def EventStore.add (s : EventStore) (e : TransferEvent) : Option EventStore :=
  if s.limit ≤ s.events.length then
    match s.events with
    | [] => none
    | _ :: rest => some ⟨rest ++ [e], s.limit⟩
  else some ⟨s.events ++ [e], s.limit⟩

/-- Appending a sequence of events, propagating the panic case. -/
def runAdds (s : EventStore) : List TransferEvent → Option EventStore
  | [] => some s
  | e :: rest => (s.add e).bind (fun s' => runAdds s' rest)

theorem add_events {s : EventStore} {e : TransferEvent} (h1 : 1 ≤ s.limit)
    (h2 : s.events.length ≤ s.limit) :
    s.add e = some ⟨(s.events ++ [e]).drop (s.events.length + 1 - s.limit), s.limit⟩ := by
  unfold EventStore.add
  by_cases hc : s.limit ≤ s.events.length
  · rw [if_pos hc]
    match hev : s.events with
    | [] => rw [hev] at hc; simp at hc; omega
    | a :: rest =>
      rw [hev] at h2 hc
      have harith : (a :: rest).length + 1 - s.limit = 1 := by
        simp at h2 hc ⊢; omega
      rw [harith]
      simp
  · rw [if_neg hc]
    have harith : s.events.length + 1 - s.limit = 0 := by omega
    rw [harith]
    simp

theorem runAdds_events : ∀ (es : List TransferEvent) (s : EventStore),
    1 ≤ s.limit → s.events.length ≤ s.limit →
    runAdds s es =
      some ⟨(s.events ++ es).drop (s.events.length + es.length - s.limit), s.limit⟩ := by
  intro es
  induction es with
  | nil =>
    intro s h1 h2
    rw [runAdds]
    have harith : s.events.length + ([] : List TransferEvent).length - s.limit = 0 := by
      simp only [List.length_nil]
      omega
    rw [harith]
    simp
  | cons e rest ih =>
    intro s h1 h2
    rw [runAdds, add_events h1 h2, Option.some_bind]
    have hl : (s.events ++ [e]).length = s.events.length + 1 := by simp
    have hj : s.events.length + 1 - s.limit ≤ (s.events ++ [e]).length := by
      rw [hl]; omega
    have hrec := ih ⟨(s.events ++ [e]).drop (s.events.length + 1 - s.limit), s.limit⟩
      h1 (by simp; omega)
    rw [hrec]
    congr 1
    rw [← List.drop_append_of_le_length hj, List.drop_drop]
    have hlst : (s.events ++ [e]) ++ rest = s.events ++ e :: rest := by simp
    rw [hlst]
    have hamount : (s.events.length + 1 - s.limit) +
        (((s.events ++ [e]).drop (s.events.length + 1 - s.limit)).length
          + rest.length - s.limit)
        = s.events.length + (e :: rest).length - s.limit := by
      simp only [List.length_drop, List.length_append, List.length_cons,
        List.length_nil]
      omega
    rw [hamount]

/-- Claim C4: the bounded event store keeps at most `capacity` events through
any single `Add`, and appending `capacity + 1` events to a fresh store leaves
exactly `capacity` events in arrival order: precisely the tail of the
appended sequence, so the first event is dropped and the last appended event
is the last element. -/
theorem c4_ring_buffer_eviction :
    (∀ (cap : Nat) (es : List TransferEvent), 1 ≤ cap → es.length = cap + 1 →
      ∃ t, runAdds (NewEventStore cap) es = some t ∧
        t.events = es.tail ∧ t.events.length = cap) ∧
    (∀ (s : EventStore) (e : TransferEvent) (t : EventStore),
      s.events.length ≤ s.limit → s.add e = some t →
      t.events.length ≤ s.limit) := by
  constructor
  · intro cap es h1 hlen
    have h := runAdds_events es (NewEventStore cap) h1 (by simp [NewEventStore])
    refine ⟨_, h, ?_, ?_⟩
    · show ((NewEventStore cap).events ++ es).drop
        ((NewEventStore cap).events.length + es.length - cap) = es.tail
      simp [NewEventStore, hlen, List.drop_one]
    · show (((NewEventStore cap).events ++ es).drop
        ((NewEventStore cap).events.length + es.length - cap)).length = cap
      simp [NewEventStore, hlen]
  · intro s e t h2 hadd
    unfold EventStore.add at hadd
    by_cases hc : s.limit ≤ s.events.length
    · rw [if_pos hc] at hadd
      match hev : s.events with
      | [] => rw [hev] at hadd; simp at hadd
      | a :: rest =>
        rw [hev] at hadd
        simp at hadd
        rw [hev] at h2
        simp at h2
        cases hadd
        simp
        omega
    · rw [if_neg hc] at hadd
      simp at hadd
      cases hadd
      simp
      omega

/-- Claim C4 witness: two live instantiations of the eviction theorem at
capacity 2 with three concrete events. -/
theorem c4_ring_buffer_eviction_witness :
    (1 ≤ 2 ∧ ([⟨1, "a", [], [], 0⟩, ⟨2, "b", [], [], 0⟩,
        ⟨3, "c", [], [], 0⟩] : List TransferEvent).length = 2 + 1) ∧
    ∃ t, runAdds (NewEventStore 2)
        [⟨1, "a", [], [], 0⟩, ⟨2, "b", [], [], 0⟩, ⟨3, "c", [], [], 0⟩] = some t ∧
      t.events = ([⟨1, "a", [], [], 0⟩, ⟨2, "b", [], [], 0⟩,
        ⟨3, "c", [], [], 0⟩] : List TransferEvent).tail ∧
      t.events.length = 2 :=
  ⟨⟨by decide, by decide⟩,
    c4_ring_buffer_eviction.1 2
      [⟨1, "a", [], [], 0⟩, ⟨2, "b", [], [], 0⟩, ⟨3, "c", [], [], 0⟩]
      (by decide) (by decide)⟩

/-- Claim C10: `Add` never hits the panicking slice expression on a store
whose capacity is at least 1, while on a store of capacity 0 the very first
`Add` evaluates `events[1:]` on the empty backing slice and panics. -/
theorem c10_add_capacity_safety :
    (∀ (s : EventStore) (e : TransferEvent), 1 ≤ s.limit →
      ∃ t, s.add e = some t) ∧
    (∀ e : TransferEvent, (NewEventStore 0).add e = none) := by
  constructor
  · intro s e h1
    unfold EventStore.add
    by_cases hc : s.limit ≤ s.events.length
    · rw [if_pos hc]
      match hev : s.events with
      | [] => rw [hev] at hc; simp at hc; omega
      | a :: rest => exact ⟨_, rfl⟩
    · rw [if_neg hc]
      exact ⟨_, rfl⟩
  · intro e
    rfl

/-- Claim C10 witness: the positive-capacity half applied to a concrete
store of capacity 1 that is already full. -/
theorem c10_add_capacity_safety_witness :
    1 ≤ (EventStore.mk [⟨1, "a", [], [], 0⟩] 1).limit ∧
    ∃ t, (EventStore.mk [⟨1, "a", [], [], 0⟩] 1).add ⟨2, "b", [], [], 0⟩ = some t :=
  ⟨by decide,
    c10_add_capacity_safety.1 (EventStore.mk [⟨1, "a", [], [], 0⟩] 1)
      ⟨2, "b", [], [], 0⟩ (by decide)⟩

end MiniExplorer

namespace MultiNodePool

/-- Mirrors `NodeStatus` of src/10-multi-node-pool/main.go; the
`Client *ethclient.Client` pointer is modelled by `hasClient` (whether it is
non-nil). -/
structure NodeStatus where
  url : String
  hasClient : Bool
  alive : Bool
deriving DecidableEq

/-- Mirrors `EthClientPool` (without the mutex, whose critical sections are
modelled by the atomic state transitions below). -/
structure EthClientPool where
  nodes : List NodeStatus
  primaryIdx : Nat
  readIdx : Nat
deriving DecidableEq

/-- `strings.TrimSpace`: strip leading and trailing whitespace characters
(defined over the character list so that it evaluates inside the kernel). -/
def trimSpace (s : String) : String :=
  ⟨((s.data.dropWhile Char.isWhitespace).reverse.dropWhile Char.isWhitespace).reverse⟩

/-- Mirrors `NewEthClientPool`.  The outcome of `ethclient.DialContext` for
each URL is supplied by the oracle `dial`.  A blank (whitespace-only) URL is
skipped; a failed dial appends a dead record with no client; the
construction errors only when `urls` is empty or when `nodes` ends up
empty. -/
def NewEthClientPool (dial : String → Bool) (urls : List String) :
    Except String EthClientPool :=
  if urls.isEmpty then .error "no rpc urls provided"
  else
    let nodes := urls.foldl (fun acc raw =>
      let u := trimSpace raw
      if u = "" then acc
      else if dial u then acc ++ [⟨u, true, true⟩]
      else acc ++ [⟨u, false, false⟩]) []
    if nodes.isEmpty then .error "no node connected successfully"
    else .ok ⟨nodes, 0, 0⟩

/-- `node.Alive && node.Client != nil` for the record at index `idx`. -/
def isLive (nodes : List NodeStatus) (idx : Nat) : Bool :=
  match nodes[idx]? with
  | some node => node.alive && node.hasClient
  | none => false

/-- Mirrors `pickReadNode`: scan `i = 0 .. n-1` probing index
`(readIdx + i) % n` for the first alive record with a client; on a hit
advance `readIdx` to just past it.  The chosen index is returned (the Go
code returns the `*NodeStatus` stored at that index). -/
def pickReadNode (p : EthClientPool) : Option Nat × EthClientPool :=
  let n := p.nodes.length
  match ((List.range n).map (fun i => (p.readIdx + i) % n)).find? (isLive p.nodes) with
  | some idx => (some idx, { p with readIdx := (idx + 1) % n })
  | none => (none, p)

/-- Mirrors `pickPrimaryNode`: keep the current primary if it is a valid
index and alive; otherwise scan from index 0 for the first live record and
move `primaryIdx` there; otherwise report no live node. -/
def pickPrimaryNode (p : EthClientPool) : Option Nat × EthClientPool :=
  let n := p.nodes.length
  if 0 < n ∧ p.primaryIdx < n ∧ isLive p.nodes p.primaryIdx then
    (some p.primaryIdx, p)
  else
    match (List.range n).find? (isLive p.nodes) with
    | some i => (some i, { p with primaryIdx := i })
    | none => (none, p)

/-- The loop body of `markNodeDead`: clear `Alive` on the first record whose
URL matches, leaving the rest untouched (the Go loop returns after the first
match). -/
def markFirst : List NodeStatus → String → List NodeStatus
  | [], _ => []
  | node :: rest, url =>
    if node.url = url then { node with alive := false } :: rest
    else node :: markFirst rest url

/-- Mirrors `markNodeDead`. -/
def markNodeDead (p : EthClientPool) (url : String) : EthClientPool :=
  { p with nodes := markFirst p.nodes url }

/-- The sequence of read selections produced by consecutive `pickReadNode`
calls, threading the pool state. -/
def pickSeq (p : EthClientPool) : Nat → List (Option Nat)
  | 0 => []
  | m + 1 => (pickReadNode p).1 :: pickSeq (pickReadNode p).2 m

/-- The pool operations a caller can interleave between primary
selections. -/
inductive PoolOp where
  | pickRead
  | pickPrimary
  | markDead (url : String)
deriving DecidableEq

def applyOp (p : EthClientPool) : PoolOp → Option Nat × EthClientPool
  | .pickRead => pickReadNode p
  | .pickPrimary => pickPrimaryNode p
  | .markDead url => (none, markNodeDead p url)

/-- Run a sequence of pool operations, collecting each operation's selection
result. -/
def runOps (p : EthClientPool) : List PoolOp → List (Option Nat) × EthClientPool
  | [] => ([], p)
  | op :: rest =>
    let r := applyOp p op
    let rs := runOps r.2 rest
    (r.1 :: rs.1, rs.2)

theorem pickReadNode_nodes (p : EthClientPool) :
    (pickReadNode p).2.nodes = p.nodes := by
  unfold pickReadNode
  cases hfind : ((List.range p.nodes.length).map
      (fun i => (p.readIdx + i) % p.nodes.length)).find? (isLive p.nodes) <;>
    simp [hfind]

theorem pickReadNode_primaryIdx (p : EthClientPool) :
    (pickReadNode p).2.primaryIdx = p.primaryIdx := by
  unfold pickReadNode
  cases hfind : ((List.range p.nodes.length).map
      (fun i => (p.readIdx + i) % p.nodes.length)).find? (isLive p.nodes) <;>
    simp [hfind]

theorem markFirst_getElem? : ∀ (nodes : List NodeStatus) (url : String) (i : Nat)
    (node : NodeStatus), nodes[i]? = some node → node.url ≠ url →
    (markFirst nodes url)[i]? = some node := by
  intro nodes
  induction nodes with
  | nil => intro url i node h _; simp at h
  | cons a rest ih =>
    intro url i node h hne
    cases i with
    | zero =>
      simp at h
      subst h
      rw [markFirst, if_neg hne]
      simp
    | succ i =>
      simp at h
      rw [markFirst]
      by_cases hu : a.url = url
      · rw [if_pos hu]
        simpa using h
      · rw [if_neg hu]
        simpa using ih url i node h hne

theorem isLive_of_record {nodes : List NodeStatus} {B : Nat} {nodeB : NodeStatus}
    (hB : nodes[B]? = some nodeB) (ha : nodeB.alive = true)
    (hc : nodeB.hasClient = true) : isLive nodes B = true := by
  unfold isLive
  rw [hB]
  simp [ha, hc]

theorem pickPrimaryNode_of_live {p : EthClientPool} {nodeB : NodeStatus}
    (hB : p.nodes[p.primaryIdx]? = some nodeB) (ha : nodeB.alive = true)
    (hc : nodeB.hasClient = true) :
    pickPrimaryNode p = (some p.primaryIdx, p) := by
  have hlt : p.primaryIdx < p.nodes.length := by
    by_contra hge
    rw [List.getElem?_eq_none (by omega)] at hB
    exact Option.noConfusion hB
  unfold pickPrimaryNode
  rw [if_pos ⟨by omega, hlt, isLive_of_record hB ha hc⟩]

theorem runOps_primary_sticky : ∀ (ops : List PoolOp) (p : EthClientPool)
    (B : Nat) (nodeB : NodeStatus),
    p.primaryIdx = B → p.nodes[B]? = some nodeB →
    nodeB.alive = true → nodeB.hasClient = true →
    (∀ u, PoolOp.markDead u ∈ ops → u ≠ nodeB.url) →
    ((runOps p ops).2.primaryIdx = B ∧ (runOps p ops).2.nodes[B]? = some nodeB) ∧
    (∀ pr ∈ ops.zip (runOps p ops).1, pr.1 = PoolOp.pickPrimary → pr.2 = some B) := by
  intro ops
  induction ops with
  | nil =>
    intro p B nodeB hidx hB _ _ _
    exact ⟨⟨hidx, hB⟩, by simp [runOps]⟩
  | cons op rest ih =>
    intro p B nodeB hidx hB ha hc hops
    have hstep : (applyOp p op).2.primaryIdx = B ∧
        (applyOp p op).2.nodes[B]? = some nodeB ∧
        (op = PoolOp.pickPrimary → (applyOp p op).1 = some B) := by
      cases op with
      | pickRead =>
        refine ⟨?_, ?_, by intro h; exact PoolOp.noConfusion h⟩
        · rw [applyOp, pickReadNode_primaryIdx, hidx]
        · rw [applyOp, pickReadNode_nodes, hB]
      | pickPrimary =>
        have hpk : pickPrimaryNode p = (some p.primaryIdx, p) :=
          pickPrimaryNode_of_live (by rw [hidx]; exact hB) ha hc
        rw [applyOp, hpk]
        exact ⟨hidx, hB, fun _ => by rw [hidx]⟩
      | markDead u =>
        have hne : u ≠ nodeB.url := hops u (List.mem_cons_self ..)
        refine ⟨hidx, ?_, by intro h; exact PoolOp.noConfusion h⟩
        rw [applyOp]
        exact markFirst_getElem? p.nodes u B nodeB hB (fun h => hne h.symm)
    have hrest := ih (applyOp p op).2 B nodeB hstep.1 hstep.2.1 ha hc
      (fun u hu => hops u (List.mem_cons_of_mem _ hu))
    rw [runOps]
    refine ⟨hrest.1, ?_⟩
    intro pr hpr hop
    rw [List.zip_cons_cons] at hpr
    rcases List.mem_cons.1 hpr with hhd | htl
    · subst hhd
      exact hstep.2.2 hop
    · exact hrest.2 pr htl hop

/-- Claim C3: once the pool's primary index sits on a live node B, any
sequence of read selections, primary selections and dead-markings of other
URLs keeps the primary index on B and every primary selection in the trace
returns B (never an earlier-index node, live or not); and whenever the
record at the primary index is not live, `pickPrimaryNode` selects by
scanning from index 0 for the first live record. -/
theorem c3_primary_stickiness (p : EthClientPool) (B : Nat) (nodeB : NodeStatus)
    (hidx : p.primaryIdx = B) (hB : p.nodes[B]? = some nodeB)
    (ha : nodeB.alive = true) (hc : nodeB.hasClient = true)
    (ops : List PoolOp) (hops : ∀ u, PoolOp.markDead u ∈ ops → u ≠ nodeB.url) :
    ((runOps p ops).2.primaryIdx = B ∧ (runOps p ops).2.nodes[B]? = some nodeB) ∧
    (∀ pr ∈ ops.zip (runOps p ops).1, pr.1 = PoolOp.pickPrimary → pr.2 = some B) ∧
    (∀ q : EthClientPool, isLive q.nodes q.primaryIdx = false →
      (pickPrimaryNode q).1 = (List.range q.nodes.length).find? (isLive q.nodes)) := by
  have h := runOps_primary_sticky ops p B nodeB hidx hB ha hc hops
  refine ⟨h.1, h.2, ?_⟩
  intro q hdead
  unfold pickPrimaryNode
  rw [if_neg (by rw [hdead]; simp)]
  cases hfind : (List.range q.nodes.length).find? (isLive q.nodes) <;> simp [hfind]

/-- Concrete pool for the C3 witness: two live nodes, primary already failed
over to index 1. -/
def c3Pool : EthClientPool := ⟨[⟨"a", true, true⟩, ⟨"b", true, true⟩], 1, 0⟩

/-- Concrete operation trace for the C3 witness. -/
def c3Ops : List PoolOp := [.pickPrimary, .markDead "a", .pickPrimary]

/-- Claim C3 witness: the stickiness theorem applied to a concrete pool whose
primary has failed over to index 1 while index 0 is alive. -/
theorem c3_primary_stickiness_witness :
    (c3Pool.primaryIdx = 1 ∧ c3Pool.nodes[1]? = some ⟨"b", true, true⟩ ∧
      (∀ u, PoolOp.markDead u ∈ c3Ops → u ≠ "b")) ∧
    ((runOps c3Pool c3Ops).2.primaryIdx = 1 ∧
      (runOps c3Pool c3Ops).2.nodes[1]? = some ⟨"b", true, true⟩) ∧
    (∀ pr ∈ c3Ops.zip (runOps c3Pool c3Ops).1,
      pr.1 = PoolOp.pickPrimary → pr.2 = some 1) ∧
    (∀ q : EthClientPool, isLive q.nodes q.primaryIdx = false →
      (pickPrimaryNode q).1 = (List.range q.nodes.length).find? (isLive q.nodes)) := by
  refine ⟨⟨rfl, by decide, ?_⟩, ?_⟩
  · intro u hu
    simp [c3Ops] at hu
    subst hu
    decide
  · have h := c3_primary_stickiness c3Pool 1 ⟨"b", true, true⟩ rfl (by decide)
      rfl rfl c3Ops (by intro u hu; simp [c3Ops] at hu; subst hu; decide)
    exact ⟨h.1, h.2.1, h.2.2⟩

/-- Claim C1 evaluation: construct a pool from one non-blank endpoint whose
dial fails.  No dial succeeds, yet `NewEthClientPool` does not fail with the
no-nodes error — it returns a valid pool holding a single dead record,
because failed dials still append records and the
`no node connected successfully` guard only checks for an empty record
list. -/
theorem c1_construction_no_fail_on_all_dial_failures :
    NewEthClientPool (fun _ => false) ["http://a"] =
      .ok ⟨[⟨"http://a", false, false⟩], 0, 0⟩ := by
  rfl

end MultiNodePool

namespace MiniExplorer

open EthAbi

/-- Modelled from the spec: the payload-decode failure value, a
`DecodeError` carrying the event name and the offending parameter name. -/
structure DecodeError where
  eventName : String
  paramName : String
deriving DecidableEq

/-- Modelled from the spec: go-ethereum's `UnpackIntoInterface` for the
Transfer event's single non-indexed `uint256` parameter is library code that
is not part of this repository; per the spec the value is the big-endian
interpretation of the 32-byte payload word and a truncated word fails with a
`DecodeError` naming the event and the parameter. -/
def unpackTransferData (data : List Nat) : Except DecodeError Nat :=
  if 32 ≤ data.length then .ok (beToNat (data.take 32))
  else .error ⟨"Transfer", "value"⟩

/-- Mirrors the per-log decode of `subscribeTransferEvents`: drop a log with
no topics; unpack `value` from the payload, skipping the log on failure;
read `from`/`to` out of `Topics[1]`/`Topics[2]` only when at least 3 topics
are present, keeping the zero-address defaults otherwise.  Note that
`topics[0]` is never compared against any signature hash. -/
def decodeTransferLog (l : RawLog) : Option (List Nat × List Nat × Nat) :=
  if l.topics.isEmpty then none
  else
    match unpackTransferData l.data with
    | .error _ => none
    | .ok v =>
      if 3 ≤ l.topics.length then
        some (bytesToAddress (l.topics.getD 1 []),
          bytesToAddress (l.topics.getD 2 []), v)
      else
        some (zeroAddress, zeroAddress, v)

/-- One iteration of the subscription loop for one received log: a log that
fails to decode is skipped, leaving the store as is; a decoded event is
added to the store (`none` models the add panic, unreachable for the
capacity-100 store the service builds). -/
def processLog (s : EventStore) (l : RawLog) : Option EventStore :=
  match decodeTransferLog l with
  | none => some s
  | some (f, t, v) => s.add ⟨l.blockNumber, l.txHash, f, t, v⟩

/-- The subscription loop over a sequence of received logs. -/
def processLogs (s : EventStore) : List RawLog → Option EventStore
  | [] => some s
  | l :: rest => (processLog s l).bind (fun s' => processLogs s' rest)

/-- The synthetic encoding of the round-trip property: `topics[0]` the event
signature hash, `topics[1]`/`topics[2]` the 12-byte-zero-padded addresses,
payload the 32-byte big-endian value. -/
def encodeTransfer (sig fromA toA : List Nat) (v : Nat) : RawLog :=
  ⟨[sig, List.replicate 12 0 ++ fromA, List.replicate 12 0 ++ toA],
    natToBE 32 v, 0, ""⟩

/-- Claim C8: when the payload of one raw log fails to decode, the failure
is a `DecodeError` carrying the event name and the offending parameter
name, the log is skipped — nothing is appended, the store is unchanged —
and the pipeline continues with the remaining logs. -/
theorem c8_decode_error_skips_log (s : EventStore) (l : RawLog)
    (h : l.data.length < 32) :
    unpackTransferData l.data = .error ⟨"Transfer", "value"⟩ ∧
    processLog s l = some s ∧
    (∀ rest, processLogs s (l :: rest) = processLogs s rest) := by
  have hunpack : unpackTransferData l.data = .error ⟨"Transfer", "value"⟩ := by
    unfold unpackTransferData
    rw [if_neg (by omega)]
  have hskip : processLog s l = some s := by
    unfold processLog decodeTransferLog
    by_cases ht : l.topics.isEmpty
    · rw [if_pos ht]
    · rw [if_neg ht, hunpack]
  exact ⟨hunpack, hskip, fun rest => by rw [processLogs, hskip, Option.some_bind]⟩

/-- Claim C8 witness: a concrete store and a concrete log with a 5-byte
payload. -/
theorem c8_decode_error_skips_log_witness :
    (RawLog.mk [[7]] [1, 2, 3, 4, 5] 9 "t").data.length < 32 ∧
    (unpackTransferData (RawLog.mk [[7]] [1, 2, 3, 4, 5] 9 "t").data =
        .error ⟨"Transfer", "value"⟩ ∧
      processLog (NewEventStore 100) (RawLog.mk [[7]] [1, 2, 3, 4, 5] 9 "t") =
        some (NewEventStore 100) ∧
      (∀ rest, processLogs (NewEventStore 100)
          (RawLog.mk [[7]] [1, 2, 3, 4, 5] 9 "t" :: rest) =
        processLogs (NewEventStore 100) rest)) :=
  ⟨by decide,
    c8_decode_error_skips_log (NewEventStore 100)
      (RawLog.mk [[7]] [1, 2, 3, 4, 5] 9 "t") (by decide)⟩

/-- Claim C9: the mini-explorer pipeline never compares `topics[0]` with the
Transfer signature hash — the first topic below is an arbitrary word `w` —
so any log with at least one topic whose payload holds a 32-byte word is
decoded and appended to the store as a Transfer event; and with fewer than
3 topics the from/to fields are stored as the all-zero address. -/
theorem c9_no_signature_comparison (s : EventStore) (w : List Nat)
    (ts : List (List Nat)) (data : List Nat) (bn : Nat) (tx : String)
    (hd : 32 ≤ data.length) :
    ∃ f t, decodeTransferLog ⟨w :: ts, data, bn, tx⟩ =
        some (f, t, beToNat (data.take 32)) ∧
      processLog s ⟨w :: ts, data, bn, tx⟩ =
        s.add ⟨bn, tx, f, t, beToNat (data.take 32)⟩ ∧
      ((w :: ts).length < 3 → f = zeroAddress ∧ t = zeroAddress) := by
  have hunpack : unpackTransferData data = .ok (beToNat (data.take 32)) := by
    unfold unpackTransferData
    rw [if_pos hd]
  by_cases h3 : 3 ≤ (w :: ts).length
  · have h3' : 2 ≤ ts.length := by simpa using h3
    have hdec : decodeTransferLog ⟨w :: ts, data, bn, tx⟩ =
        some (bytesToAddress ((w :: ts).getD 1 []),
          bytesToAddress ((w :: ts).getD 2 []), beToNat (data.take 32)) := by
      unfold decodeTransferLog
      rw [if_neg (by simp)]
      show (match unpackTransferData data with
        | .error _ => none
        | .ok v => _) = _
      rw [hunpack]
      simp [h3']
    refine ⟨_, _, hdec, ?_, by omega⟩
    unfold processLog
    rw [hdec]
  · have h3' : ¬ 2 ≤ ts.length := by simpa using h3
    have hdec : decodeTransferLog ⟨w :: ts, data, bn, tx⟩ =
        some (zeroAddress, zeroAddress, beToNat (data.take 32)) := by
      unfold decodeTransferLog
      rw [if_neg (by simp)]
      show (match unpackTransferData data with
        | .error _ => none
        | .ok v => _) = _
      rw [hunpack]
      simp [h3']
    refine ⟨_, _, hdec, ?_, fun _ => ⟨rfl, rfl⟩⟩
    unfold processLog
    rw [hdec]

/-- Claim C9 witness: a log whose only topic is the word `[42]` — not a
Transfer signature hash — and a 32-byte payload encoding 5. -/
theorem c9_no_signature_comparison_witness :
    32 ≤ (EthAbi.natToBE 32 5).length ∧
    ∃ f t, decodeTransferLog ⟨[[42]], EthAbi.natToBE 32 5, 3, "h"⟩ =
        some (f, t, beToNat ((EthAbi.natToBE 32 5).take 32)) ∧
      processLog (NewEventStore 100) ⟨[[42]], EthAbi.natToBE 32 5, 3, "h"⟩ =
        (NewEventStore 100).add
          ⟨3, "h", f, t, beToNat ((EthAbi.natToBE 32 5).take 32)⟩ ∧
      (([[42]] : List (List Nat)).length < 3 → f = zeroAddress ∧ t = zeroAddress) :=
  ⟨by rw [natToBE_length],
    c9_no_signature_comparison (NewEventStore 100) [42] [] (EthAbi.natToBE 32 5)
      3 "h" (by rw [natToBE_length])⟩

end MiniExplorer


namespace SubscribeLogs

open EthAbi

/-- The closed set of parameter types occurring in the embedded ERC-20 ABI,
dispatched by the `switch input.Type.T` of `parseLogEvent`. -/
inductive AbiTy where
  | address
  | uint256
  | boolTy
  | bytes32
deriving DecidableEq

/-- One declared event parameter: name, scalar type and indexed flag. -/
structure AbiParam where
  name : String
  ty : AbiTy
  indexed : Bool
deriving DecidableEq

/-- A decoded parameter value. -/
inductive AbiValue where
  | addr (bs : List Nat)
  | uint (n : Nat)
  | boolV (b : Bool)
  | bytes (bs : List Nat)
deriving DecidableEq

/-- The Transfer event of the embedded ERC-20 ABI JSON. -/
def transferInputs : List AbiParam :=
  [⟨"from", .address, true⟩, ⟨"to", .address, true⟩, ⟨"value", .uint256, false⟩]

/-- The Approval event of the embedded ERC-20 ABI JSON. -/
def approvalInputs : List AbiParam :=
  [⟨"owner", .address, true⟩, ⟨"spender", .address, true⟩, ⟨"value", .uint256, false⟩]

/-- The `switch input.Type.T` of `parseLogEvent` decoding one 32-byte word:
addresses keep the lower 20 bytes, integers are read big-endian, booleans
test the last byte, fixed byte words pass through. -/
def decodeWord (ty : AbiTy) (w : List Nat) : AbiValue :=
  match ty with
  | .address => .addr (bytesToAddress w)
  | .uint256 => .uint (beToNat w)
  | .boolTy => .boolV (w.getD 31 0 != 0)
  | .bytes32 => .bytes w

/-- The indexed-parameter loop of `parseLogEvent` (lines 172-208): walk the
declared inputs; each indexed one reads topic slot `1 +` the running indexed
counter; a slot beyond the available topics is skipped while the counter
still advances, so that parameter is simply omitted from the output. -/
def decodeIndexed (topics : List (List Nat)) :
    List AbiParam → Nat → List (String × AbiValue)
  | [], _ => []
  | inp :: rest, cnt =>
    if inp.indexed then
      if 1 + cnt < topics.length then
        (inp.name, decodeWord inp.ty (topics.getD (1 + cnt) [])) ::
          decodeIndexed topics rest (cnt + 1)
      else decodeIndexed topics rest (cnt + 1)
    else decodeIndexed topics rest cnt

/-- Modelled from the spec: go-ethereum's `abi.Unpack` for the non-indexed
parameters is library code that is not part of this repository.  Per the
spec each non-indexed scalar parameter occupies one word-aligned 32-byte
slice of the payload in declaration order, and a truncated word is a decode
error. -/
def unpackArgs (data : List Nat) : List AbiTy → Nat → Except String (List AbiValue)
  | [], _ => .ok []
  | ty :: rest, i =>
    if 32 * (i + 1) ≤ data.length then
      match unpackArgs data rest (i + 1) with
      | .ok vs => .ok (decodeWord ty ((data.drop (32 * i)).take 32) :: vs)
      | .error e => .error e
    else .error "length insufficient"

/-- The non-indexed inputs, in declaration order (lines 217-222). -/
def nonIndexedOf (inputs : List AbiParam) : List AbiParam :=
  inputs.filter (fun i => !i.indexed)

/-- The output loop of `parseLogEvent` (lines 232-254): non-indexed inputs
paired positionally with the unpacked values, truncating at the shorter
side. -/
def pairNames (inputs : List AbiParam) (vs : List AbiValue) :
    List (String × AbiValue) :=
  ((nonIndexedOf inputs).zip vs).map (fun pr => (pr.1.name, pr.2))

/-- The event-identification loop of `parseLogEvent` (lines 134-143):
compare `topics[0]` with each event's signature hash.  The Go code iterates
the parsed ABI's event map, whose order is arbitrary; the deterministic
Transfer-first test here agrees with it whenever the two hashes differ, as
the real keccak hashes do. -/
def matchEvent (sigTransfer sigApproval t0 : List Nat) :
    Option (String × List AbiParam) :=
  if t0 = sigTransfer then some ("Transfer", transferInputs)
  else if t0 = sigApproval then some ("Approval", approvalInputs)
  else none

/-- The data-section handling of `parseLogEvent` (lines 212-259): nothing to
decode for an empty payload or when every parameter is indexed; otherwise
the unpacked values are paired with the non-indexed parameter names, and a
decode failure is reported inline (the `Except.error` case) without
aborting. -/
def dataSection (inputs : List AbiParam) (data : List Nat) :
    Except String (List (String × AbiValue)) :=
  if 0 < data.length then
    if 0 < (nonIndexedOf inputs).length then
      match unpackArgs data ((nonIndexedOf inputs).map (fun i => i.ty)) 0 with
      | .ok vs => .ok (pairNames inputs vs)
      | .error e => .error e
    else .ok []
  else .ok []

/-- What `parseLogEvent` reports for one recognized log: the event name, the
decoded indexed parameters, and the data-section outcome. -/
structure ParsedEvent where
  name : String
  indexedParams : List (String × AbiValue)
  dataParams : Except String (List (String × AbiValue))

/-- Mirrors `parseLogEvent` of src/06-subscribe-logs/main.go: drop a log
with no topics, identify the event by `topics[0]`, decode the indexed
parameters from the topic slots and the non-indexed ones from the
payload. -/
def parseLogEvent (sigTransfer sigApproval : List Nat) (l : RawLog) :
    Option ParsedEvent :=
  match l.topics with
  | [] => none
  | t0 :: _ =>
    match matchEvent sigTransfer sigApproval t0 with
    | none => none
    | some (name, inputs) =>
      some ⟨name, decodeIndexed l.topics inputs 0, dataSection inputs l.data⟩

theorem parseLogEvent_transfer (sigT sigA : List Nat) (rest : List (List Nat))
    (data : List Nat) (bn : Nat) (tx : String) :
    parseLogEvent sigT sigA ⟨sigT :: rest, data, bn, tx⟩ =
      some ⟨"Transfer", decodeIndexed (sigT :: rest) transferInputs 0,
        dataSection transferInputs data⟩ := by
  unfold parseLogEvent
  show ((match matchEvent sigT sigA sigT with
    | none => none
    | some (name, inputs) =>
      some (ParsedEvent.mk name (decodeIndexed (sigT :: rest) inputs 0)
        (dataSection inputs data))) : Option ParsedEvent) = _
  unfold matchEvent
  rw [if_pos rfl]

theorem dataSection_transfer_ok (w : List Nat) (hw : 32 ≤ w.length) :
    dataSection transferInputs w =
      .ok [("value", .uint (beToNat (w.take 32)))] := by
  unfold dataSection
  rw [if_pos (by omega), if_pos (by decide)]
  have hnon : (nonIndexedOf transferInputs).map (fun i => i.ty) = [.uint256] := by
    decide
  rw [hnon]
  simp only [unpackArgs]
  rw [if_pos (by omega : 32 * (0 + 1) ≤ w.length)]
  show Except.ok (pairNames transferInputs
    [decodeWord .uint256 ((w.drop 0).take 32)]) = _
  rw [List.drop_zero]
  rfl

theorem decodeIndexed_one_topic (t0 : List Nat) :
    decodeIndexed [t0] transferInputs 0 = [] := by
  rw [transferInputs]
  rw [decodeIndexed, if_pos rfl, if_neg (by simp)]
  rw [decodeIndexed, if_pos rfl, if_neg (by simp)]
  rw [decodeIndexed, if_neg (by simp)]
  rw [decodeIndexed]

/-- Claim C6: a log carrying only `topics[0]` still decodes: the event is
recognized, every indexed parameter is omitted from the result (no error is
raised for the missing topic slots), and the parameters decodable from the
payload are still produced. -/
theorem c6_truncated_topics_tolerated (sigT sigA : List Nat) (hne : sigT ≠ sigA)
    (bn : Nat) (tx : String) :
    (∀ data : List Nat,
      parseLogEvent sigT sigA ⟨[sigT], data, bn, tx⟩ =
        some ⟨"Transfer", [], dataSection transferInputs data⟩) ∧
    (∀ w : List Nat, w.length = 32 →
      parseLogEvent sigT sigA ⟨[sigT], w, bn, tx⟩ =
        some ⟨"Transfer", [], .ok [("value", .uint (beToNat w))]⟩) := by
  constructor
  · intro data
    rw [parseLogEvent_transfer, decodeIndexed_one_topic]
  · intro w hw
    rw [parseLogEvent_transfer, decodeIndexed_one_topic,
      dataSection_transfer_ok w (by omega), List.take_of_length_le (by omega)]

/-- Claim C6 witness: the truncated-topics theorem applied at concrete
distinct signature words, an empty payload and a concrete 32-byte
payload. -/
theorem c6_truncated_topics_tolerated_witness :
    (([1] : List Nat) ≠ [2] ∧ (EthAbi.natToBE 32 7).length = 32) ∧
    parseLogEvent [1] [2] ⟨[[1]], [], 0, ""⟩ =
      some ⟨"Transfer", [], dataSection transferInputs []⟩ ∧
    parseLogEvent [1] [2] ⟨[[1]], EthAbi.natToBE 32 7, 0, ""⟩ =
      some ⟨"Transfer", [], .ok [("value", .uint (beToNat (EthAbi.natToBE 32 7)))]⟩ := by
  have h := c6_truncated_topics_tolerated [1] [2] (by decide) 0 ""
  exact ⟨⟨by decide, natToBE_length ..⟩, h.1 [], h.2 _ (natToBE_length ..)⟩

theorem decodeTransferLog_three (t0 w1 w2 data : List Nat) (bn : Nat)
    (tx : String) (v : Nat)
    (hunp : MiniExplorer.unpackTransferData data = .ok v) :
    MiniExplorer.decodeTransferLog ⟨[t0, w1, w2], data, bn, tx⟩ =
      some (bytesToAddress w1, bytesToAddress w2, v) := by
  unfold MiniExplorer.decodeTransferLog
  rw [if_neg (by simp)]
  show (match MiniExplorer.unpackTransferData data with
    | .error _ => none
    | .ok v => _) = _
  rw [hunp]
  simp

theorem decodeIndexed_three_topics (t0 w1 w2 : List Nat) :
    decodeIndexed [t0, w1, w2] transferInputs 0 =
      [("from", .addr (bytesToAddress w1)), ("to", .addr (bytesToAddress w2))] := by
  rw [transferInputs]
  rw [decodeIndexed, if_pos rfl, if_pos (by simp)]
  rw [decodeIndexed, if_pos rfl, if_pos (by simp)]
  rw [decodeIndexed, if_neg (by simp)]
  rw [decodeIndexed]
  rfl

/-- Claim C5: round trip of the synthetic Transfer encoding.  Both decoders
of the repository — the mini explorer's `subscribeTransferEvents` decode and
`parseLogEvent` of 06-subscribe-logs — recover exactly the original `from`,
`to` and `value`: the addresses from the lower 20 bytes of their topic
words, the value from the 32-byte big-endian payload word. -/
theorem c5_decoder_round_trip (sigT fromA toA : List Nat) (v : Nat)
    (hf : fromA.length = 20) (ht : toA.length = 20) (hv : v < 256 ^ 32) :
    MiniExplorer.decodeTransferLog (MiniExplorer.encodeTransfer sigT fromA toA v) =
      some (fromA, toA, v) ∧
    (∀ sigA, sigT ≠ sigA →
      parseLogEvent sigT sigA (MiniExplorer.encodeTransfer sigT fromA toA v) =
        some ⟨"Transfer", [("from", .addr fromA), ("to", .addr toA)],
          .ok [("value", .uint v)]⟩) := by
  have hlen : (natToBE 32 v).length = 32 := natToBE_length ..
  have hval : beToNat ((natToBE 32 v).take 32) = v := by
    rw [List.take_of_length_le (by omega), beToNat_natToBE_of_lt hv]
  have hunpack : MiniExplorer.unpackTransferData (natToBE 32 v) = .ok v := by
    unfold MiniExplorer.unpackTransferData
    rw [if_pos (by omega), hval]
  constructor
  · unfold MiniExplorer.encodeTransfer
    rw [decodeTransferLog_three _ _ _ _ _ _ v hunpack,
      bytesToAddress_pad hf, bytesToAddress_pad ht]
  · intro sigA _
    unfold MiniExplorer.encodeTransfer
    rw [parseLogEvent_transfer, decodeIndexed_three_topics,
      dataSection_transfer_ok _ (by omega),
      List.take_of_length_le (by omega), beToNat_natToBE_of_lt hv,
      bytesToAddress_pad hf, bytesToAddress_pad ht]

/-- Claim C5 witness: the round trip at concrete 20-byte addresses and value
700, with concrete distinct signature words. -/
theorem c5_decoder_round_trip_witness :
    ((List.replicate 20 1).length = 20 ∧ (List.replicate 20 2).length = 20 ∧
      (700 : Nat) < 256 ^ 32 ∧ ([9] : List Nat) ≠ [8]) ∧
    MiniExplorer.decodeTransferLog
        (MiniExplorer.encodeTransfer [9] (List.replicate 20 1)
          (List.replicate 20 2) 700) =
      some (List.replicate 20 1, List.replicate 20 2, 700) ∧
    parseLogEvent [9] [8]
        (MiniExplorer.encodeTransfer [9] (List.replicate 20 1)
          (List.replicate 20 2) 700) =
      some ⟨"Transfer",
        [("from", .addr (List.replicate 20 1)), ("to", .addr (List.replicate 20 2))],
        .ok [("value", .uint 700)]⟩ := by
  have h := c5_decoder_round_trip [9] (List.replicate 20 1) (List.replicate 20 2)
    700 (by decide) (by decide) (by norm_num)
  exact ⟨⟨by decide, by decide, by norm_num, by decide⟩, h.1, h.2 [8] (by decide)⟩

end SubscribeLogs

namespace Reconnect

/-- The wait of `sleepWithBackoff`:
`int(math.Min(60, math.Pow(2, float64(attempt))))` seconds.  For every
attempt count the float computation is exact (powers of two and 60 are
exactly representable and `min` picks 60 before any rounding could matter),
so the `Nat` rendering is faithful. -/
def backoffSeconds (attempt : Nat) : Nat := min 60 (2 ^ attempt)

/-- What the environment does to one iteration of `runWithReconnect`'s outer
loop.  The `cancelledDuringWait` flag on the failure outcomes records
whether the shared context is cancelled while `sleepWithBackoff` is waiting
on its timer. -/
inductive Outcome where
  | ctxDone
  | dialErr (cancelledDuringWait : Bool)
  | subErr (cancelledDuringWait : Bool)
  | streamErr (cancelledDuringWait : Bool)
  | streamDone
deriving DecidableEq

/-- The externally visible actions of the loop: a numbered connect attempt,
a backoff wait of some seconds, and the loop returning. -/
inductive Action where
  | dialAttempt (n : Nat)
  | wait (seconds : Nat)
  | stop
deriving DecidableEq

/-- Whether an outcome observes the cancellation signal during its backoff
wait. -/
def cancelsDuringWait : Outcome → Bool
  | .dialErr c => c
  | .subErr c => c
  | .streamErr c => c
  | _ => false

/-- Mirrors `runWithReconnect`: the top-of-loop select returns when the
context is done; otherwise `attempt` is incremented and a dial performed; a
dial, subscribe or streaming subscription error leads to
`sleepWithBackoff(ctx, attempt)` and another round.  A Go context stays
cancelled once cancelled, so when cancellation arrives during the backoff
wait the next top-of-loop select takes `ctx.Done()` and the loop returns:
the rest of the outcome trace is never consumed. -/
def runWithReconnect (attempt : Nat) : List Outcome → List Action
  | [] => []
  | o :: rest =>
    match o with
    | .ctxDone => [.stop]
    | .dialErr c =>
      .dialAttempt (attempt + 1) :: .wait (backoffSeconds (attempt + 1)) ::
        (if c then [.stop] else runWithReconnect (attempt + 1) rest)
    | .subErr c =>
      .dialAttempt (attempt + 1) :: .wait (backoffSeconds (attempt + 1)) ::
        (if c then [.stop] else runWithReconnect (attempt + 1) rest)
    | .streamErr c =>
      .dialAttempt (attempt + 1) :: .wait (backoffSeconds (attempt + 1)) ::
        (if c then [.stop] else runWithReconnect (attempt + 1) rest)
    | .streamDone => [.dialAttempt (attempt + 1), .stop]

/-- The wait durations of an action trace, in order. -/
def waitsOf (acts : List Action) : List Nat :=
  acts.filterMap (fun a => match a with
    | .wait s => some s
    | _ => none)

/-- The connect-attempt numbers of an action trace, in order. -/
def dialsOf (acts : List Action) : List Nat :=
  acts.filterMap (fun a => match a with
    | .dialAttempt n => some n
    | _ => none)

theorem backoffSeconds_mono {a b : Nat} (h : a ≤ b) :
    backoffSeconds a ≤ backoffSeconds b :=
  min_le_min (Nat.le_refl 60) (Nat.pow_le_pow_right (by omega) h)

theorem waitsOf_chain (evs : List Outcome) : ∀ a : Nat,
    List.Chain' (· ≤ ·) (waitsOf (runWithReconnect a evs)) ∧
    (∀ w ∈ waitsOf (runWithReconnect a evs), backoffSeconds (a + 1) ≤ w) := by
  induction evs with
  | nil => intro a; simp [runWithReconnect, waitsOf]
  | cons o rest ih =>
    intro a
    match o with
    | .ctxDone => simp [runWithReconnect, waitsOf]
    | .streamDone => simp [runWithReconnect, waitsOf]
    | .dialErr c | .subErr c | .streamErr c =>
      rw [runWithReconnect]
      cases c with
      | true => simp [waitsOf]
      | false =>
        rw [if_neg (by simp)]
        have hih := ih (a + 1)
        have heq : waitsOf (.dialAttempt (a + 1) ::
            .wait (backoffSeconds (a + 1)) :: runWithReconnect (a + 1) rest) =
            backoffSeconds (a + 1) :: waitsOf (runWithReconnect (a + 1) rest) := by
          simp [waitsOf]
        rw [heq]
        constructor
        · rw [List.chain'_cons']
          refine ⟨?_, hih.1⟩
          intro b hb
          have hmem : b ∈ waitsOf (runWithReconnect (a + 1) rest) :=
            List.mem_of_mem_head? hb
          exact le_trans (backoffSeconds_mono (by omega)) (hih.2 b hmem)
        · intro w hw
          rcases List.mem_cons.1 hw with h1 | h2
          · exact le_of_eq h1.symm
          · exact le_trans (backoffSeconds_mono (by omega)) (hih.2 w h2)

theorem waitsOf_le_60 (evs : List Outcome) : ∀ a : Nat,
    (waitsOf (runWithReconnect a evs)).all (fun w => decide (w ≤ 60)) := by
  induction evs with
  | nil => intro a; simp [runWithReconnect, waitsOf]
  | cons o rest ih =>
    intro a
    match o with
    | .ctxDone => simp [runWithReconnect, waitsOf]
    | .streamDone => simp [runWithReconnect, waitsOf]
    | .dialErr c | .subErr c | .streamErr c =>
      rw [runWithReconnect]
      cases c with
      | true => simp [waitsOf, backoffSeconds]
      | false =>
        rw [if_neg (by simp)]
        show ((backoffSeconds (a + 1) ::
          waitsOf (runWithReconnect (a + 1) rest)).all _) = true
        rw [List.all_cons]
        have h2 : decide (backoffSeconds (a + 1) ≤ 60) = true := by
          have h1 : backoffSeconds (a + 1) ≤ 60 := Nat.min_le_left ..
          simpa using h1
        rw [h2, Bool.true_and]
        exact ih (a + 1)

theorem dialsOf_consecutive (evs : List Outcome) : ∀ a : Nat,
    dialsOf (runWithReconnect a evs) =
      List.range' (a + 1) (dialsOf (runWithReconnect a evs)).length := by
  induction evs with
  | nil => intro a; simp [runWithReconnect, dialsOf]
  | cons o rest ih =>
    intro a
    match o with
    | .ctxDone => simp [runWithReconnect, dialsOf]
    | .streamDone =>
      show dialsOf [.dialAttempt (a + 1), .stop] = _
      simp [dialsOf, List.filterMap]
    | .dialErr c | .subErr c | .streamErr c =>
      rw [runWithReconnect]
      cases c with
      | true => simp [dialsOf, List.filterMap]
      | false =>
        rw [if_neg (by simp)]
        show dialsOf (.dialAttempt (a + 1) :: .wait _ ::
          runWithReconnect (a + 1) rest) = _
        have hd : dialsOf (.dialAttempt (a + 1) :: .wait (backoffSeconds (a + 1)) ::
            runWithReconnect (a + 1) rest) =
            (a + 1) :: dialsOf (runWithReconnect (a + 1) rest) := by
          simp [dialsOf]
        rw [hd, ih (a + 1)]
        simp [List.range'_succ]

theorem runWithReconnect_cancel_cut (o : Outcome) (ho : cancelsDuringWait o = true) :
    ∀ (evs1 evs2 : List Outcome) (a : Nat),
    runWithReconnect a (evs1 ++ o :: evs2) = runWithReconnect a (evs1 ++ [o]) := by
  intro evs1
  induction evs1 with
  | nil =>
    intro evs2 a
    match o, ho with
    | .dialErr true, _ => rw [List.nil_append, List.nil_append]; rfl
    | .subErr true, _ => rw [List.nil_append, List.nil_append]; rfl
    | .streamErr true, _ => rw [List.nil_append, List.nil_append]; rfl
  | cons e rest ih =>
    intro evs2 a
    rw [List.cons_append, List.cons_append]
    match e with
    | .ctxDone => rfl
    | .streamDone => rfl
    | .dialErr c | .subErr c | .streamErr c =>
      rw [runWithReconnect, runWithReconnect]
      cases c with
      | true => rfl
      | false =>
        rw [if_neg (by simp), if_neg (by simp), ih evs2 (a + 1)]

/-- Claim C7: consecutive connection failures wait
`min(60, 2 ^ attempt)` seconds with the attempt counter increasing by one
per loop iteration for the lifetime of the stream and never reset by a
successful reconnect (the dial numbers of any trace form the consecutive
range starting after the initial counter), so the waits are non-decreasing
and capped at 60; and a cancellation observed during any backoff wait
terminates the loop right after that wait — the remaining outcome trace is
never consumed, so no further connection attempt happens. -/
theorem c7_backoff_monotone_capped_cancellable :
    (∀ (a : Nat) (evs : List Outcome),
      List.Chain' (· ≤ ·) (waitsOf (runWithReconnect a evs))) ∧
    (∀ (a : Nat) (evs : List Outcome),
      (waitsOf (runWithReconnect a evs)).all (fun w => decide (w ≤ 60))) ∧
    (∀ (a : Nat) (evs : List Outcome),
      dialsOf (runWithReconnect a evs) =
        List.range' (a + 1) (dialsOf (runWithReconnect a evs)).length) ∧
    (∀ (a : Nat) (c : Bool), runWithReconnect a [.dialErr c] =
      .dialAttempt (a + 1) :: .wait (min 60 (2 ^ (a + 1))) ::
        (if c then [.stop] else [])) ∧
    (∀ (o : Outcome), cancelsDuringWait o = true →
      ∀ (evs1 evs2 : List Outcome) (a : Nat),
        runWithReconnect a (evs1 ++ o :: evs2) =
          runWithReconnect a (evs1 ++ [o])) := by
  refine ⟨fun a evs => (waitsOf_chain evs a).1, fun a evs => waitsOf_le_60 evs a,
    fun a evs => dialsOf_consecutive evs a, ?_, runWithReconnect_cancel_cut⟩
  intro a c
  cases c <;> rfl

/-- Claim C7 witness: the cancellation-cut conjunct applied to a concrete
trace in which cancellation arrives during the second backoff wait, plus the
wait-shape conjunct at a concrete attempt count. -/
theorem c7_backoff_witness :
    cancelsDuringWait (.streamErr true) = true ∧
    runWithReconnect 0 ([.dialErr false] ++ .streamErr true :: [.ctxDone, .dialErr false]) =
      runWithReconnect 0 ([.dialErr false] ++ [.streamErr true]) ∧
    runWithReconnect 3 [.dialErr true] =
      .dialAttempt 4 :: .wait (min 60 (2 ^ 4)) :: [.stop] :=
  ⟨rfl,
    c7_backoff_monotone_capped_cancellable.2.2.2.2 (.streamErr true) rfl
      [.dialErr false] [.ctxDone, .dialErr false] 0,
    c7_backoff_monotone_capped_cancellable.2.2.2.1 3 true⟩

end Reconnect

namespace MultiNodePool

/-- The probe sequence of `pickReadNode`'s loop: the indices
`(c + i) % n` for `i = 0 .. n-1`. -/
def walkFrom (n c : Nat) : List Nat :=
  (List.range n).map (fun i => (c + i) % n)

/-- The indices of the live records, in pool order. -/
def liveIndices (p : EthClientPool) : List Nat :=
  (List.range p.nodes.length).filter (isLive p.nodes)

theorem walkFrom_eq_rotate (n c : Nat) :
    walkFrom n c = (List.range n).rotate c := by
  apply List.ext_getElem
  · simp [walkFrom]
  · intro i h1 h2
    simp [walkFrom, List.getElem_rotate]
    rw [Nat.add_comm c i]

theorem walkFrom_perm (n c : Nat) : (walkFrom n c).Perm (List.range n) := by
  rw [walkFrom_eq_rotate]
  exact List.rotate_perm ..

theorem walkFrom_mod (n c : Nat) : walkFrom n (c % n) = walkFrom n c := by
  rw [walkFrom_eq_rotate, walkFrom_eq_rotate]
  have h := List.rotate_mod (List.range n) c
  simpa using h

theorem walkFrom_add (n c j : Nat) :
    walkFrom n (c + j) = (walkFrom n c).rotate j := by
  rw [walkFrom_eq_rotate, walkFrom_eq_rotate, List.rotate_rotate]

theorem livePicks_rotate (nodes : List NodeStatus) (c p0 : Nat)
    (h : (walkFrom nodes.length c).find? (isLive nodes) = some p0) :
    ∃ M, (walkFrom nodes.length c).filter (isLive nodes) = p0 :: M ∧
      (walkFrom nodes.length (p0 + 1)).filter (isLive nodes) = M ++ [p0] := by
  obtain ⟨hlive, A, B, hsplit, hA⟩ := List.find?_eq_some.1 h
  have hA' : ∀ x ∈ A, isLive nodes x = false := by
    intro x hx
    have := hA x hx
    simpa using this
  have hAfilter : A.filter (isLive nodes) = [] :=
    List.filter_eq_nil_iff.2 (fun x hx => by simp [hA' x hx])
  have hlen : (walkFrom nodes.length c).length = nodes.length := by
    simp [walkFrom]
  have hd : A.length < nodes.length := by
    rw [hsplit] at hlen
    simp at hlen
    omega
  have hp0 : p0 = (c + A.length) % nodes.length := by
    have h1 : (walkFrom nodes.length c)[A.length]? = some ((c + A.length) % nodes.length) := by
      unfold walkFrom
      rw [List.getElem?_map, List.getElem?_range hd]
      rfl
    have h2 : (walkFrom nodes.length c)[A.length]? = some p0 := by
      rw [hsplit, List.getElem?_append_right (Nat.le_refl A.length)]
      simp
    rw [h1] at h2
    exact (Option.some.inj h2).symm
  refine ⟨B.filter (isLive nodes), ?_, ?_⟩
  · rw [hsplit, List.filter_append, hAfilter, List.nil_append,
      List.filter_cons_of_pos hlive]
  · have hrot : walkFrom nodes.length (p0 + 1) =
        (walkFrom nodes.length c).rotate (A.length + 1) := by
      have e2 : ((c + A.length) % nodes.length + 1) % nodes.length
          = (c + (A.length + 1)) % nodes.length := by
        rw [Nat.mod_add_mod, Nat.add_assoc]
      rw [hp0, ← walkFrom_mod nodes.length ((c + A.length) % nodes.length + 1),
        e2, walkFrom_mod, walkFrom_add]
    have hsplit' : walkFrom nodes.length c = (A ++ [p0]) ++ B := by
      rw [hsplit]
      simp
    have hd1 : A.length + 1 ≤ (walkFrom nodes.length c).length := by omega
    rw [hrot, List.rotate_eq_drop_append_take hd1, hsplit']
    have hlenA : (A ++ [p0]).length = A.length + 1 := by simp
    rw [← hlenA, List.drop_left, List.take_left, List.filter_append,
      List.filter_append, hAfilter, List.nil_append,
      List.filter_cons_of_pos hlive]
    rfl

theorem pickReadNode_eq (p : EthClientPool) :
    pickReadNode p =
      match (walkFrom p.nodes.length p.readIdx).find? (isLive p.nodes) with
      | some idx => (some idx, { p with readIdx := (idx + 1) % p.nodes.length })
      | none => (none, p) := rfl

theorem pickSeq_take : ∀ (m : Nat) (p : EthClientPool),
    m ≤ ((walkFrom p.nodes.length p.readIdx).filter (isLive p.nodes)).length →
    pickSeq p m =
      (((walkFrom p.nodes.length p.readIdx).filter (isLive p.nodes)).take m).map
        some := by
  intro m
  induction m with
  | zero => intro p _; simp [pickSeq]
  | succ m ih =>
    intro p hm
    have hex : ∃ p0, (walkFrom p.nodes.length p.readIdx).find? (isLive p.nodes)
        = some p0 := by
      cases hf : (walkFrom p.nodes.length p.readIdx).find? (isLive p.nodes) with
      | some p0 => exact ⟨p0, rfl⟩
      | none =>
        have hall := List.find?_eq_none.1 hf
        have hnil : (walkFrom p.nodes.length p.readIdx).filter (isLive p.nodes)
            = [] :=
          List.filter_eq_nil_iff.2 (fun a ha => by simpa using hall a ha)
        rw [hnil] at hm
        simp at hm
    obtain ⟨p0, hfind⟩ := hex
    obtain ⟨M, hLM, hrot⟩ := livePicks_rotate p.nodes p.readIdx p0 hfind
    have hpick : pickReadNode p =
        (some p0, { p with readIdx := (p0 + 1) % p.nodes.length }) := by
      rw [pickReadNode_eq, hfind]
    have hMlen : ((walkFrom p.nodes.length p.readIdx).filter (isLive p.nodes)).length
        = M.length + 1 := by
      rw [hLM]
      simp
    have hW : (walkFrom p.nodes.length ((p0 + 1) % p.nodes.length)).filter
        (isLive p.nodes) = M ++ [p0] := by
      rw [walkFrom_mod]
      exact hrot
    have hm' : m ≤ ((walkFrom p.nodes.length ((p0 + 1) % p.nodes.length)).filter
        (isLive p.nodes)).length := by
      rw [hW]
      simp
      omega
    rw [pickSeq, hpick]
    have hihres := ih { p with readIdx := (p0 + 1) % p.nodes.length } hm'
    rw [hihres]
    show some p0 :: (((walkFrom p.nodes.length ((p0 + 1) % p.nodes.length)).filter
      (isLive p.nodes)).take m).map some = _
    rw [hW, hLM, List.take_succ_cons,
      List.take_append_of_le_length (by omega : m ≤ M.length)]
    rfl

theorem pickReadNode_none_iff_find? (p : EthClientPool) :
    (pickReadNode p).1 = none ↔
      (walkFrom p.nodes.length p.readIdx).find? (isLive p.nodes) = none := by
  rw [pickReadNode_eq]
  cases hf : (walkFrom p.nodes.length p.readIdx).find? (isLive p.nodes) <;>
    simp [hf]

/-- Claim C2: for a pool whose records satisfy the construction invariant
(alive implies a connection is present), with `k` the number of live
records and `k ≥ 1`, the `k` consecutive `pickReadNode` selections starting
from any cursor position — hence after any number of preceding calls — are
a permutation of the `k` live indices, so each live node is returned exactly
once; and `pickReadNode` returns no node exactly when no record in the pool
is alive. -/
theorem c2_round_robin_fairness (p : EthClientPool)
    (hinv : ∀ node ∈ p.nodes, node.alive = true → node.hasClient = true)
    (k : Nat) (hk : k = (liveIndices p).length) (hk1 : 1 ≤ k) :
    (pickSeq p k).Perm ((liveIndices p).map some) ∧
    ((pickReadNode p).1 = none ↔ ∀ node ∈ p.nodes, node.alive = false) := by
  have hperm : ((walkFrom p.nodes.length p.readIdx).filter (isLive p.nodes)).Perm
      (liveIndices p) := (walkFrom_perm p.nodes.length p.readIdx).filter _
  have hlen : ((walkFrom p.nodes.length p.readIdx).filter (isLive p.nodes)).length
      = k := by
    rw [hperm.length_eq, hk]
  constructor
  · rw [pickSeq_take k p (by omega), List.take_of_length_le (by omega)]
    exact hperm.map some
  · rw [pickReadNode_none_iff_find?, List.find?_eq_none]
    constructor
    · intro hall node hmem
      obtain ⟨i, hi, hnode⟩ := List.mem_iff_getElem.1 hmem
      have hiwalk : i ∈ walkFrom p.nodes.length p.readIdx := by
        rw [(walkFrom_perm p.nodes.length p.readIdx).mem_iff]
        exact List.mem_range.2 hi
      have hfalse := hall i hiwalk
      have hsome : p.nodes[i]? = some node := by
        rw [List.getElem?_eq_getElem hi, hnode]
      cases halive : node.alive with
      | false => rfl
      | true =>
        exfalso
        apply hfalse
        unfold isLive
        rw [hsome]
        simp [halive, hinv node hmem halive]
    · intro hdead x _
      unfold isLive
      cases hx : p.nodes[x]? with
      | none => simp
      | some node =>
        have hmem : node ∈ p.nodes := List.getElem?_mem hx
        simp [hdead node hmem]

/-- Concrete pool for the C2 witness: three records of which indices 0 and 2
are live, with the read cursor already advanced to 2 by earlier calls. -/
def c2Pool : EthClientPool :=
  ⟨[⟨"a", true, true⟩, ⟨"b", false, false⟩, ⟨"c", true, true⟩], 0, 2⟩

/-- Claim C2 witness: the fairness theorem applied to `c2Pool` with its two
live nodes. -/
theorem c2_round_robin_fairness_witness :
    ((∀ node ∈ c2Pool.nodes, node.alive = true → node.hasClient = true) ∧
      2 = (liveIndices c2Pool).length ∧ 1 ≤ 2) ∧
    (pickSeq c2Pool 2).Perm ((liveIndices c2Pool).map some) ∧
    ((pickReadNode c2Pool).1 = none ↔ ∀ node ∈ c2Pool.nodes, node.alive = false) :=
  ⟨⟨by decide, by decide, by decide⟩,
    c2_round_robin_fairness c2Pool (by decide) 2 (by decide) (by decide)⟩

end MultiNodePool
